import Mathlib

/-!
Verification development for the Sleeve single-seed wallet construction.

The wallet, wots and hasher packages of the repository are exercised by the
tests under wallet/ but their sources are not part of the present tree, so
the single-seed pipeline below is modelled from the specification (sections
4.2, 4.4, 4.6, 4.7, 6 and 7 of spec.md).  External library primitives
(SHA3-256, SHA-256, PBKDF2 seed stretching, BIP32 node derivation on
secp256k1, and the WOTS+ key generator) are abstracted as parameters in the
structure Prims: no claim below depends on their internals, only on how the
wallet layer wires them together.  The WIF encoder, whose source is present
in tools/derive-network.go, is embedded directly from that source.
-/

namespace SleeveSpec

/-- Byte strings are lists of naturals; a well-formed byte is below 256. -/
abbrev Bytes := List Nat

/-- Big-endian interpretation of a byte string as a natural number. -/
def beNat (bs : Bytes) : Nat := bs.foldl (fun a b => a * 256 + b) 0

/-- Big-endian encoding of a natural number into a fixed number of bytes. -/
def beBytes : Nat → Nat → Bytes
  | 0, _ => []
  | k + 1, v => beBytes k (v / 256) ++ [v % 256]

/-- Split a natural number into k big-endian 11-bit word indices. -/
def wordIndices : Nat → Nat → List Nat
  | 0, _ => []
  | k + 1, v => wordIndices k (v / 2048) ++ [v % 2048]

/-- Recombine 11-bit word indices into the natural number they encode. -/
def foldIndices (idxs : List Nat) : Nat := idxs.foldl (fun a i => a * 2048 + i) 0

/-- A BIP32 extended node: private key bytes and chain code bytes. -/
structure HDNode where
  key : Bytes
  code : Bytes
deriving DecidableEq, Repr

/-- WOTS+ parameter set, as in the level table of the spec (section 4.4). -/
structure WotsParams where
  n : Nat
  w : Nat
  len1 : Nat
  len2 : Nat
  len : Nat
deriving DecidableEq, Repr

/-- Modelled from the spec: the number of valid WOTS+ parameter encodings
(levels 0 to 3); wots.ParamsEncodingLen in the missing wots package. -/
def ParamsEncodingLen : Nat := 4

/-- Modelled from the spec: wots.DecodeParams, the level table of section
4.4; encodings outside 0..3 are invalid. -/
def DecodeParams : Nat → Option WotsParams
  | 0 => some ⟨32, 256, 32, 2, 34⟩
  | 1 => some ⟨32, 16, 64, 3, 67⟩
  | 2 => some ⟨32, 4, 128, 4, 132⟩
  | 3 => some ⟨32, 2, 256, 8, 264⟩
  | _ => none

/-- External cryptographic primitives used by the wallet layer, kept
abstract: SHA3-256 (the hasher package wrapping x/crypto), SHA-256 (the
BIP39 checksum hash), PBKDF2-HMAC-SHA512 seed stretching
(bip39.NewSeedWithErrorChecking), the BIP32 path walk on secp256k1
(wallet.ComputeNode, which can fail per the BIP32 retry rule), and the
WOTS+ key generator (params, secret seed, public seed to public key). -/
structure Prims where
  sha3 : Bytes → Bytes
  sha256 : Bytes → Bytes
  mnemonicToSeed : List String → String → Bytes
  computeNode : Bytes → List Nat → Option HDNode
  wotsPK : WotsParams → Bytes → Bytes → Bytes

/-- Error taxonomy of the spec (section 7). -/
inductive SleeveError where
  | EntropyUnavailable
  | BadEntropySize
  | BadLength
  | UnknownWord
  | BadChecksum
  | AccountTooLarge
  | InvalidWotsParams
  | DerivationFailure
  | UnknownNetwork
deriving DecidableEq, Repr

/-- A mnemonic for the single-seed construction has 24 words. -/
def MnemonicWords : Nat := 24

/-- Sleeve entropy is exactly 32 bytes. -/
def EntropySize : Nat := 32

/-- First position of an unknown word in a word list, if any. -/
def wordIndex : List String → String → Option Nat
  | [], _ => none
  | x :: rest, w => if x = w then some 0 else (wordIndex rest w).map (· + 1)

/-- Look up every word of a mnemonic in the word list. -/
def lookupWords (wl : List String) : List String → Option (List Nat)
  | [] => some []
  | w :: rest =>
    match wordIndex wl w, lookupWords wl rest with
    | some i, some is => some (i :: is)
    | _, _ => none

/-- Modelled from the spec: BIP39 entropy to mnemonic (section 4.2) for the
32-byte case: append the first SHA-256 byte as checksum and split the 264
bits into 24 big-endian 11-bit indices into the word list. -/
def entropyToMnemonic (P : Prims) (wl : List String) (ent : Bytes) : List String :=
  let cs := (P.sha256 ent).headD 0
  let full := beNat ent * 256 + cs
  (wordIndices MnemonicWords full).map (fun i => wl.getD i (""))

/-- Modelled from the spec: BIP39 mnemonic to entropy (section 4.2) for the
24-word case, with the error taxonomy of section 7: word count, unknown
word, then checksum are checked in that order. -/
def mnemonicToEntropy (P : Prims) (wl : List String) (m : List String) :
    Except SleeveError Bytes :=
  if m.length ≠ MnemonicWords then .error .BadLength
  else
    match lookupWords wl m with
    | none => .error .UnknownWord
    | some idxs =>
      let full := foldIndices idxs
      let ent := beBytes EntropySize (full / 256)
      if full % 256 = (P.sha256 ent).headD 0 then .ok ent else .error .BadChecksum

/-- The hardened-bit threshold, 2 to the 31. -/
def firstHardened : Nat := 0x80000000

/-- Modelled from the spec: the fixed quantum path, all segments hardened:
purpose 44, coin 1955, the account of the GenSpec, change 0, index 0. -/
def quantumPath (account : Nat) : List Nat :=
  [0x8000002C, 0x800007A3, firstHardened + account, firstHardened, firstHardened]

/-- Modelled from the spec: classical path segments for a network key:
purpose 44 hardened, coin type hardened, account 0 hardened, change 0
non-hardened, then the non-hardened derivation index (section 4.6 step 7). -/
def classicalPath (coinType idx : Nat) : List Nat :=
  [0x8000002C, firstHardened + coinType, firstHardened, 0, idx]

/-- The hardened marker character (apostrophe) of canonical path strings. -/
def hardMark : String := String.singleton (Char.ofNat 39)

/-- Modelled from the spec: canonical classical path string, m slash 44
hardened slash coin hardened slash 0 hardened slash 0 slash index. -/
def pathString (coinType idx : Nat) : String :=
  "m/44" ++ hardMark ++ "/" ++ toString coinType ++ hardMark ++ "/0" ++
    hardMark ++ "/0/" ++ toString idx

/-- A derived network key entry (section 3 of the spec). -/
structure NetworkKey where
  network : String
  coinType : Nat
  path : String
  privateKey : Bytes
deriving DecidableEq, Repr

def CoinTypeBitcoin : Nat := 0
def CoinTypeEthereum : Nat := 60
def CoinTypePolkadot : Nat := 354
def CoinTypeLitecoin : Nat := 2
def CoinTypeCardano : Nat := 1815

/-- A WOTS+ key: parameter set plus secret and public seeds. -/
structure WotsKey where
  params : WotsParams
  secretSeed : Bytes
  publicSeed : Bytes
deriving DecidableEq, Repr

/-- Modelled from the spec: recompute the public key of a WOTS+ key via the
abstract key generator. -/
def WotsKey.ComputePK (P : Prims) (k : WotsKey) : Bytes :=
  P.wotsPK k.params k.secretSeed k.publicSeed

/-- The single-seed Sleeve state (section 3 of the spec). -/
structure SingleSeedSleeve where
  mnemonic : List String
  wotsKey : WotsKey
  wotsPk : Bytes
  derivationIndex : Nat
  networkKeys : List (String × NetworkKey)
deriving DecidableEq, Repr

instance : Inhabited SingleSeedSleeve :=
  ⟨⟨[], ⟨⟨0, 0, 0, 0, 0⟩, [], []⟩, [], 0, []⟩⟩

/-- Keyed lookup in the network registry. -/
def lookupKey : List (String × NetworkKey) → String → Option NetworkKey
  | [], _ => none
  | p :: rest, l => if p.1 = l then some p.2 else lookupKey rest l

/-- Keyed insert-or-overwrite in the network registry, the map-assignment
semantics of the network map. -/
def upsertKey : List (String × NetworkKey) → String → NetworkKey →
    List (String × NetworkKey)
  | [], l, v => [(l, v)]
  | p :: rest, l, v => if p.1 = l then (l, v) :: rest else p :: upsertKey rest l v

def SingleSeedSleeve.GetMnemonic (s : SingleSeedSleeve) : List String := s.mnemonic

def SingleSeedSleeve.GetWOTSPublicKey (s : SingleSeedSleeve) : Bytes := s.wotsPk

def SingleSeedSleeve.GetWOTSKey (s : SingleSeedSleeve) : WotsKey := s.wotsKey

def SingleSeedSleeve.GetDerivationIndex (s : SingleSeedSleeve) : Nat :=
  s.derivationIndex

def SingleSeedSleeve.GetAllNetworkKeys (s : SingleSeedSleeve) :
    List (String × NetworkKey) := s.networkKeys

def SingleSeedSleeve.GetPrivateKey (s : SingleSeedSleeve) (label : String) :
    Except SleeveError Bytes :=
  match lookupKey s.networkKeys label with
  | some nk => .ok nk.privateKey
  | none => .error .UnknownNetwork

/-- Modelled from the spec: the derivation index is the first four bytes of
SHA3-256 of the WOTS+ public key, read big-endian, with the hardened bit
cleared (section 4.6 steps 5 and 6). -/
def deriveIndex (P : Prims) (pk : Bytes) : Nat :=
  let h := P.sha3 pk
  (h.getD 0 0 <<< 24 ||| h.getD 1 0 <<< 16 ||| h.getD 2 0 <<< 8 ||| h.getD 3 0)
    &&& 0x7FFFFFFF

/-- Reading the first four bytes of a byte string as a big-endian 32-bit
word, as the test suite computes it. -/
def be32 (bs : Bytes) : Nat :=
  bs.getD 0 0 <<< 24 ||| bs.getD 1 0 <<< 16 ||| bs.getD 2 0 <<< 8 ||| bs.getD 3 0

/-- Store a freshly derived network key under its label. -/
def addEntry (s : SingleSeedSleeve) (label : String) (coinType : Nat)
    (key : Bytes) : SingleSeedSleeve :=
  let nk : NetworkKey := ⟨label, coinType, pathString coinType s.derivationIndex, key⟩
  { s with networkKeys := upsertKey s.networkKeys label nk }

/-- Modelled from the spec: DeriveNetworkKey derives the classical node at
the fixed path suffix for the coin type and stores the entry under the
label (section 4.6 steps 7 and 8). -/
def SingleSeedSleeve.DeriveNetworkKey (P : Prims) (s : SingleSeedSleeve)
    (label : String) (coinType : Nat) (seed : Bytes) :
    Except SleeveError SingleSeedSleeve :=
  match P.computeNode seed (classicalPath coinType s.derivationIndex) with
  | none => .error .DerivationFailure
  | some node => .ok (addEntry s label coinType node.key)

/-- The three standard networks preloaded by every constructor. -/
def standardNetworks : List (String × Nat) :=
  [("Bitcoin", CoinTypeBitcoin), ("Ethereum", CoinTypeEthereum),
   ("Polkadot", CoinTypePolkadot)]

/-- Derive a list of (label, coin type) pairs in order, stopping at the
first failure. -/
def deriveMany (P : Prims) (s : SingleSeedSleeve) (nets : List (String × Nat))
    (seed : Bytes) : Except SleeveError SingleSeedSleeve :=
  match nets with
  | [] => .ok s
  | (l, c) :: rest =>
    match s.DeriveNetworkKey P l c seed with
    | .error e => .error e
    | .ok s2 => deriveMany P s2 rest seed

/-- Generation specification: account and WOTS+ parameter encoding. -/
structure GenSpec where
  account : Nat
  params : Nat
deriving DecidableEq, Repr

def NewGenSpec (account pLevel : Nat) : GenSpec := ⟨account, pLevel⟩

/-- Modelled from the spec: the default generation specification, account 0
with the default WOTS+ level. -/
def DefaultGenSpec : GenSpec := ⟨0, 0⟩

/-- Modelled from the spec: the shared single-seed pipeline (section 4.6):
validate the GenSpec, stretch the seed, derive the quantum node, generate
the WOTS+ key and its public key, derive the index from the public key
hash, then preload the three standard networks. -/
def newSingleSeedCore (P : Prims) (m : List String) (pass : String)
    (g : GenSpec) : Except SleeveError SingleSeedSleeve :=
  if g.account ≥ firstHardened then .error .AccountTooLarge
  else
    match DecodeParams g.params with
    | none => .error .InvalidWotsParams
    | some ps =>
      let seed := P.mnemonicToSeed m pass
      match P.computeNode seed (quantumPath g.account) with
      | none => .error .DerivationFailure
      | some node =>
        let wk : WotsKey := ⟨ps, node.key, node.code⟩
        let pk := wk.ComputePK P
        deriveMany P ⟨m, wk, pk, deriveIndex P pk, []⟩ standardNetworks seed

/-- Modelled from the spec: construction from a mnemonic validates the
mnemonic against the word list, then runs the shared pipeline. -/
def NewSingleSeedSleeveFromMnemonic (P : Prims) (wl : List String)
    (m : List String) (pass : String) (g : GenSpec) :
    Except SleeveError SingleSeedSleeve :=
  match mnemonicToEntropy P wl m with
  | .error e => .error e
  | .ok _ => newSingleSeedCore P m pass g

/-- Modelled from the spec: construction from entropy requires exactly 32
bytes, encodes them as a mnemonic, then runs the shared pipeline. -/
def NewSingleSeedSleeveFromEntropy (P : Prims) (wl : List String)
    (ent : Bytes) (pass : String) (g : GenSpec) :
    Except SleeveError SingleSeedSleeve :=
  if ent.length ≠ EntropySize then .error .BadEntropySize
  else newSingleSeedCore P (entropyToMnemonic P wl ent) pass g

/-- Modelled from the spec: construction from an entropy reader; a failed
or short read surfaces as EntropyUnavailable, otherwise the bytes read are
handed to the entropy constructor. -/
def NewSingleSeedSleeve (P : Prims) (wl : List String)
    (entropyRead : Option Bytes) (pass : String) (g : GenSpec) :
    Except SleeveError SingleSeedSleeve :=
  match entropyRead with
  | none => .error .EntropyUnavailable
  | some ent => NewSingleSeedSleeveFromEntropy P wl ent pass g

/-!
Embedding of privateKeyToWIF from tools/derive-network.go.  The function is
parameterised by the external crypto.Keccak256 primitive it imports from
go-ethereum; everything else is translated from the source.
-/

/-- Version byte selection of privateKeyToWIF: the switch on the coin type;
the default branch of the source returns the empty string, modelled here by
none. -/
def wifVersion : Nat → Option Nat
  | 0 => some 0x80
  | 2 => some 0xB0
  | 3 => some 0x9E
  | _ => none

/-- Lowercase hexadecimal digit, as the go fmt verb for hex prints it. -/
def hexDigit (n : Nat) : Char :=
  if n < 10 then Char.ofNat (48 + n) else Char.ofNat (87 + n)

/-- Two lowercase hexadecimal digits of one byte. -/
def hexByte (b : Nat) : String :=
  String.mk [hexDigit (b / 16 % 16), hexDigit (b % 16)]

/-- Lowercase hexadecimal rendering of a byte string. -/
def hexString (bs : Bytes) : String :=
  String.join (bs.map hexByte)

/-- The 34-byte extended key of privateKeyToWIF: version byte, the private
key copied into bytes 1 to 32 (zero padded as the go copy leaves the array
when the key is short), and the compressed-key flag byte 1. -/
def wifExtended (version : Nat) (privateKey : Bytes) : Bytes :=
  version :: (privateKey.take 32 ++ List.replicate (32 - privateKey.length) 0) ++ [1]

/-- Embedding of privateKeyToWIF from tools/derive-network.go: selects a
version byte for coin types 0, 2 and 3 (empty string otherwise), builds the
extended key, computes a 4-byte checksum by applying Keccak-256 twice, and
formats the result as a hex string inside an advisory message instead of
Base58. -/
def privateKeyToWIF (keccak256 : Bytes → Bytes) (privateKey : Bytes)
    (coinType : Nat) : String :=
  match wifVersion coinType with
  | none => ""
  | some version =>
    let extended := wifExtended version privateKey
    let hash1 := keccak256 extended
    let hash2 := keccak256 hash1
    let checksum := hash2.take 4
    let wifData := extended ++ checksum
    "(Use btcutil for proper WIF: " ++ hexString wifData ++ ")"

/-- Any of the three constructors produced the given sleeve. -/
def anyConstructor (P : Prims) (wl : List String) (pass : String) (g : GenSpec)
    (s : SingleSeedSleeve) : Prop :=
  (∃ m, NewSingleSeedSleeveFromMnemonic P wl m pass g = .ok s) ∨
  (∃ ent, NewSingleSeedSleeveFromEntropy P wl ent pass g = .ok s) ∨
  (∃ r, NewSingleSeedSleeve P wl r pass g = .ok s)

/-!
Concrete data used to instantiate the theorems: a small set of executable
stand-ins for the abstract primitives, a tiny word list, and sleeves
computed from them.
-/

def testPrims : Prims where
  sha3 := fun bs => 5 :: bs
  sha256 := fun _ => [0]
  mnemonicToSeed := fun m _ => [m.length]
  computeNode := fun seed path => some ⟨path ++ seed, 9 :: seed⟩
  wotsPK := fun ps sk pk => ps.len :: sk ++ pk

def testWordList : List String := ["z", "y"]

def testMnemonic : List String := List.replicate 24 ("z")

def extractSleeve : Except SleeveError SingleSeedSleeve → SingleSeedSleeve
  | .ok s => s
  | .error _ => default

def testSleeve : SingleSeedSleeve :=
  extractSleeve
    (NewSingleSeedSleeveFromMnemonic testPrims testWordList testMnemonic ("") DefaultGenSpec)

def wordOfNat (n : Nat) : String := String.mk (List.replicate n (Char.ofNat 122))

def bigWordList : List String := (List.range 2048).map wordOfNat

def testEntropy : Bytes := List.replicate 32 0

def recoverySleeve : SingleSeedSleeve :=
  extractSleeve
    (NewSingleSeedSleeveFromEntropy testPrims bigWordList testEntropy ("") DefaultGenSpec)

def testSeed : Bytes := [6]

def testNets : List (String × Nat) :=
  [(("Litecoin" : String), CoinTypeLitecoin), (("Cardano" : String), CoinTypeCardano)]

def testSleeveL : SingleSeedSleeve :=
  extractSleeve (testSleeve.DeriveNetworkKey testPrims ("Litecoin") CoinTypeLitecoin testSeed)

def testSleeveL2 : SingleSeedSleeve :=
  extractSleeve (testSleeveL.DeriveNetworkKey testPrims ("Litecoin") CoinTypeLitecoin testSeed)

def testSleeve7 : SingleSeedSleeve :=
  extractSleeve (deriveMany testPrims testSleeve testNets testSeed)

def badWordMnemonic : List String := List.replicate 23 ("z") ++ [("q")]

def badChkMnemonic : List String := List.replicate 23 ("z") ++ [("y")]

def badSpec : GenSpec := ⟨firstHardened, 0⟩

def testKeccak : Bytes → Bytes := fun bs => 7 :: bs

def testKey : Bytes := List.replicate 32 1

theorem deriveNetworkKey_ok {P : Prims} {s s1 : SingleSeedSleeve}
    {label : String} {coin : Nat} {seed : Bytes}
    (h : s.DeriveNetworkKey P label coin seed = .ok s1) :
    ∃ node, P.computeNode seed (classicalPath coin s.derivationIndex) = some node ∧
      s1 = addEntry s label coin node.key := by
  unfold SingleSeedSleeve.DeriveNetworkKey at h
  rcases hn : P.computeNode seed (classicalPath coin s.derivationIndex) with _ | node
  · rw [hn] at h; simp at h
  · rw [hn] at h
    simp only [Except.ok.injEq] at h
    exact ⟨node, rfl, h.symm⟩

theorem deriveNetworkKey_preserves {P : Prims} {s s1 : SingleSeedSleeve}
    {label : String} {coin : Nat} {seed : Bytes}
    (h : s.DeriveNetworkKey P label coin seed = .ok s1) :
    s1.mnemonic = s.mnemonic ∧ s1.wotsKey = s.wotsKey ∧ s1.wotsPk = s.wotsPk ∧
      s1.derivationIndex = s.derivationIndex := by
  obtain ⟨node, _, rfl⟩ := deriveNetworkKey_ok h
  exact ⟨rfl, rfl, rfl, rfl⟩

theorem deriveMany_preserves {P : Prims} {seed : Bytes} :
    ∀ {nets : List (String × Nat)} {s s1 : SingleSeedSleeve},
    deriveMany P s nets seed = .ok s1 →
    s1.mnemonic = s.mnemonic ∧ s1.wotsKey = s.wotsKey ∧ s1.wotsPk = s.wotsPk ∧
      s1.derivationIndex = s.derivationIndex := by
  intro nets
  induction nets with
  | nil =>
    intro s s1 h
    simp only [deriveMany, Except.ok.injEq] at h
    subst h; exact ⟨rfl, rfl, rfl, rfl⟩
  | cons p rest ih =>
    intro s s1 h
    obtain ⟨l, c⟩ := p
    simp only [deriveMany] at h
    rcases hd : s.DeriveNetworkKey P l c seed with _ | s2
    · rw [hd] at h; simp at h
    · rw [hd] at h
      obtain ⟨m1, k1, p1, d1⟩ := ih h
      obtain ⟨m2, k2, p2, d2⟩ := deriveNetworkKey_preserves hd
      exact ⟨m1.trans m2, k1.trans k2, p1.trans p2, d1.trans d2⟩

/-- The registry contents of a freshly constructed sleeve. -/
def standardMap (idx : Nat) (kB kE kD : Bytes) : List (String × NetworkKey) :=
  [(("Bitcoin" : String), ⟨("Bitcoin" : String), CoinTypeBitcoin, pathString CoinTypeBitcoin idx, kB⟩),
   (("Ethereum" : String), ⟨("Ethereum" : String), CoinTypeEthereum, pathString CoinTypeEthereum idx, kE⟩),
   (("Polkadot" : String), ⟨("Polkadot" : String), CoinTypePolkadot, pathString CoinTypePolkadot idx, kD⟩)]

theorem deriveStandard_ok {P : Prims} {seed : Bytes} {s s1 : SingleSeedSleeve}
    (hE : s.networkKeys = [])
    (h : deriveMany P s standardNetworks seed = .ok s1) :
    ∃ nB nE nD,
      P.computeNode seed (classicalPath CoinTypeBitcoin s.derivationIndex) = some nB ∧
      P.computeNode seed (classicalPath CoinTypeEthereum s.derivationIndex) = some nE ∧
      P.computeNode seed (classicalPath CoinTypePolkadot s.derivationIndex) = some nD ∧
      s1 = { s with networkKeys := standardMap s.derivationIndex nB.key nE.key nD.key } := by
  simp only [deriveMany, standardNetworks] at h
  rcases hB : s.DeriveNetworkKey P ("Bitcoin") CoinTypeBitcoin seed with _ | sB
  · rw [hB] at h; simp at h
  rw [hB] at h
  dsimp only at h
  obtain ⟨nB, hnB, rfl⟩ := deriveNetworkKey_ok hB
  rcases hEth : (addEntry s ("Bitcoin") CoinTypeBitcoin nB.key).DeriveNetworkKey P
      ("Ethereum") CoinTypeEthereum seed with _ | sE
  · rw [hEth] at h; simp at h
  rw [hEth] at h
  dsimp only at h
  obtain ⟨nE, hnE, rfl⟩ := deriveNetworkKey_ok hEth
  rcases hDot : (addEntry (addEntry s ("Bitcoin") CoinTypeBitcoin nB.key)
      ("Ethereum") CoinTypeEthereum nE.key).DeriveNetworkKey P
      ("Polkadot") CoinTypePolkadot seed with _ | sD
  · rw [hDot] at h; simp at h
  rw [hDot] at h
  dsimp only at h
  obtain ⟨nD, hnD, rfl⟩ := deriveNetworkKey_ok hDot
  simp only [Except.ok.injEq] at h
  subst h
  refine ⟨nB, nE, nD, ?_, ?_, ?_, ?_⟩
  · exact hnB
  · simpa [addEntry] using hnE
  · simpa [addEntry] using hnD
  · simp [addEntry, upsertKey, standardMap, hE]

theorem core_ok {P : Prims} {m : List String} {pass : String} {g : GenSpec}
    {s : SingleSeedSleeve} (h : newSingleSeedCore P m pass g = .ok s) :
    g.account < firstHardened ∧
    ∃ ps node nB nE nD,
      DecodeParams g.params = some ps ∧
      P.computeNode (P.mnemonicToSeed m pass) (quantumPath g.account) = some node ∧
      s.mnemonic = m ∧
      s.wotsKey = WotsKey.mk ps node.key node.code ∧
      s.wotsPk = WotsKey.ComputePK P (WotsKey.mk ps node.key node.code) ∧
      s.derivationIndex = deriveIndex P s.wotsPk ∧
      P.computeNode (P.mnemonicToSeed m pass)
        (classicalPath CoinTypeBitcoin s.derivationIndex) = some nB ∧
      P.computeNode (P.mnemonicToSeed m pass)
        (classicalPath CoinTypeEthereum s.derivationIndex) = some nE ∧
      P.computeNode (P.mnemonicToSeed m pass)
        (classicalPath CoinTypePolkadot s.derivationIndex) = some nD ∧
      s.networkKeys = standardMap s.derivationIndex nB.key nE.key nD.key := by
  simp only [newSingleSeedCore] at h
  split at h
  · simp at h
  next hacc =>
    rcases hD : DecodeParams g.params with _ | ps
    · rw [hD] at h; simp at h
    rw [hD] at h
    dsimp only at h
    rcases hq : P.computeNode (P.mnemonicToSeed m pass) (quantumPath g.account)
      with _ | node
    · rw [hq] at h; simp at h
    rw [hq] at h
    dsimp only at h
    obtain ⟨nB, nE, nD, hnB, hnE, hnD, rfl⟩ := deriveStandard_ok rfl h
    refine ⟨by omega, ps, node, nB, nE, nD, rfl, rfl, rfl, rfl, rfl, rfl, hnB, hnE, hnD, rfl⟩

theorem fromMnemonic_ok {P : Prims} {wl m : List String} {pass : String}
    {g : GenSpec} {s : SingleSeedSleeve}
    (h : NewSingleSeedSleeveFromMnemonic P wl m pass g = .ok s) :
    newSingleSeedCore P m pass g = .ok s ∧
      ∃ ent, mnemonicToEntropy P wl m = .ok ent := by
  unfold NewSingleSeedSleeveFromMnemonic at h
  rcases hv : mnemonicToEntropy P wl m with e | ent
  · rw [hv] at h; simp at h
  · rw [hv] at h; exact ⟨h, ent, rfl⟩

theorem fromEntropy_ok {P : Prims} {wl : List String} {ent : Bytes}
    {pass : String} {g : GenSpec} {s : SingleSeedSleeve}
    (h : NewSingleSeedSleeveFromEntropy P wl ent pass g = .ok s) :
    ent.length = EntropySize ∧
      newSingleSeedCore P (entropyToMnemonic P wl ent) pass g = .ok s := by
  unfold NewSingleSeedSleeveFromEntropy at h
  split at h
  · simp at h
  next hlen =>
    exact ⟨by omega, h⟩

theorem reader_ok {P : Prims} {wl : List String} {r : Option Bytes}
    {pass : String} {g : GenSpec} {s : SingleSeedSleeve}
    (h : NewSingleSeedSleeve P wl r pass g = .ok s) :
    ∃ ent, r = some ent ∧
      NewSingleSeedSleeveFromEntropy P wl ent pass g = .ok s := by
  unfold NewSingleSeedSleeve at h
  rcases r with _ | ent
  · simp at h
  · exact ⟨ent, rfl, h⟩

theorem anyConstructor_core {P : Prims} {wl : List String} {pass : String}
    {g : GenSpec} {s : SingleSeedSleeve} (h : anyConstructor P wl pass g s) :
    ∃ m, newSingleSeedCore P m pass g = .ok s := by
  rcases h with ⟨m, hm⟩ | ⟨ent, he⟩ | ⟨r, hr⟩
  · exact ⟨m, (fromMnemonic_ok hm).1⟩
  · exact ⟨entropyToMnemonic P wl ent, (fromEntropy_ok he).2⟩
  · obtain ⟨ent, _, he⟩ := reader_ok hr
    exact ⟨entropyToMnemonic P wl ent, (fromEntropy_ok he).2⟩

theorem be32_take4 (l : Bytes) : be32 (l.take 4) = be32 l := by
  simp [be32, List.getD_eq_getElem?_getD, List.getElem?_take]

theorem deriveIndex_eq (P : Prims) (pk : Bytes) :
    deriveIndex P pk = be32 (P.sha3 pk) &&& 0x7FFFFFFF := rfl

/-- C1: for every valid mnemonic, passphrase and GenSpec, the derivation
index of the constructed sleeve equals the first four bytes of SHA3-256 of
the WOTS+ public key, read as a big-endian 32-bit word and masked with
0x7FFFFFFF. -/
theorem sleeve_index_is_masked_pk_hash (P : Prims) (wl m : List String)
    (pass : String) (g : GenSpec) (s : SingleSeedSleeve)
    (h : NewSingleSeedSleeveFromMnemonic P wl m pass g = .ok s) :
    s.GetDerivationIndex = be32 ((P.sha3 s.GetWOTSPublicKey).take 4) &&& 0x7FFFFFFF := by
  obtain ⟨hcore, -⟩ := fromMnemonic_ok h
  obtain ⟨-, ps, node, nB, nE, nD, -, -, -, -, -, hidx, -, -, -, -⟩ := core_ok hcore
  show s.derivationIndex = _
  rw [hidx, deriveIndex_eq, be32_take4]
  rfl

/-- C2: the WOTS+ public key of the constructed sleeve equals the key
obtained manually by deriving the BIP32 node at the all-hardened quantum
path for the account of the GenSpec and running WOTS+ key generation on the
node key and chain code at the level of the GenSpec. -/
theorem sleeve_wots_consistency (P : Prims) (wl m : List String)
    (pass : String) (g : GenSpec) (s : SingleSeedSleeve) (ps : WotsParams)
    (node : HDNode)
    (h : NewSingleSeedSleeveFromMnemonic P wl m pass g = .ok s)
    (hps : DecodeParams g.params = some ps)
    (hnode : P.computeNode (P.mnemonicToSeed m pass) (quantumPath g.account) =
      some node) :
    s.GetWOTSPublicKey = P.wotsPK ps node.key node.code := by
  obtain ⟨hcore, -⟩ := fromMnemonic_ok h
  obtain ⟨-, ps2, node2, nB, nE, nD, hps2, hnode2, -, -, hpk, -, -, -, -, -⟩ :=
    core_ok hcore
  rw [hps] at hps2
  rw [hnode] at hnode2
  injection hps2 with hps2
  injection hnode2 with hnode2
  subst hps2
  subst hnode2
  exact hpk

/-- C3: every freshly constructed sleeve, from entropy, reader or mnemonic,
carries exactly the three standard networks Bitcoin, Ethereum and Polkadot,
with coin types 0, 60 and 354 and the canonical classical path built from
the derivation index. -/
theorem sleeve_standard_networks (P : Prims) (wl : List String)
    (pass : String) (g : GenSpec) (s : SingleSeedSleeve)
    (h : anyConstructor P wl pass g s) :
    s.GetAllNetworkKeys.map Prod.fst =
      [("Bitcoin" : String), ("Ethereum" : String), ("Polkadot" : String)] ∧
    (lookupKey s.GetAllNetworkKeys ("Bitcoin")).map
        (fun nk => (nk.network, nk.coinType, nk.path)) =
      some (("Bitcoin" : String), CoinTypeBitcoin,
        pathString CoinTypeBitcoin s.GetDerivationIndex) ∧
    (lookupKey s.GetAllNetworkKeys ("Ethereum")).map
        (fun nk => (nk.network, nk.coinType, nk.path)) =
      some (("Ethereum" : String), CoinTypeEthereum,
        pathString CoinTypeEthereum s.GetDerivationIndex) ∧
    (lookupKey s.GetAllNetworkKeys ("Polkadot")).map
        (fun nk => (nk.network, nk.coinType, nk.path)) =
      some (("Polkadot" : String), CoinTypePolkadot,
        pathString CoinTypePolkadot s.GetDerivationIndex) := by
  obtain ⟨m, hcore⟩ := anyConstructor_core h
  obtain ⟨-, ps, node, nB, nE, nD, -, -, -, -, -, -, -, -, -, hmap⟩ := core_ok hcore
  simp only [SingleSeedSleeve.GetAllNetworkKeys, SingleSeedSleeve.GetDerivationIndex]
  rw [hmap]
  refine ⟨rfl, ?_, ?_, ?_⟩ <;> simp [standardMap, lookupKey]

/-- C4: the construction is deterministic: two invocations on the same
mnemonic, passphrase and GenSpec agree on the WOTS+ public key, the
derivation index and the whole network-key registry. -/
theorem sleeve_deterministic (P : Prims) (wl m : List String) (pass : String)
    (g : GenSpec) (s1 s2 : SingleSeedSleeve)
    (h1 : NewSingleSeedSleeveFromMnemonic P wl m pass g = .ok s1)
    (h2 : NewSingleSeedSleeveFromMnemonic P wl m pass g = .ok s2) :
    s1.GetWOTSPublicKey = s2.GetWOTSPublicKey ∧
    s1.GetDerivationIndex = s2.GetDerivationIndex ∧
    s1.GetAllNetworkKeys = s2.GetAllNetworkKeys := by
  have h := h1.symm.trans h2
  simp only [Except.ok.injEq] at h
  subst h
  exact ⟨rfl, rfl, rfl⟩

/-- C6: the derivation index of any constructed sleeve is strictly below 2
to the 31, so the final classical path segment is non-hardened. -/
theorem sleeve_index_bound (P : Prims) (wl : List String) (pass : String)
    (g : GenSpec) (s : SingleSeedSleeve)
    (h : anyConstructor P wl pass g s) :
    s.GetDerivationIndex < 2 ^ 31 := by
  obtain ⟨m, hcore⟩ := anyConstructor_core h
  obtain ⟨-, ps, node, nB, nE, nD, -, -, -, -, -, hidx, -, -, -, -⟩ := core_ok hcore
  show s.derivationIndex < 2 ^ 31
  rw [hidx, deriveIndex_eq]
  have hle : be32 (P.sha3 s.wotsPk) &&& 0x7FFFFFFF ≤ 0x7FFFFFFF := Nat.and_le_right
  omega

/-- C10: for every constructed sleeve, recomputing the public key from the
stored WOTS+ key object reproduces the stored WOTS+ public key. -/
theorem sleeve_wots_key_recompute (P : Prims) (wl : List String)
    (pass : String) (g : GenSpec) (s : SingleSeedSleeve)
    (h : anyConstructor P wl pass g s) :
    WotsKey.ComputePK P s.GetWOTSKey = s.GetWOTSPublicKey := by
  obtain ⟨m, hcore⟩ := anyConstructor_core h
  obtain ⟨-, ps, node, nB, nE, nD, -, -, -, hwk, hpk, -, -, -, -, -⟩ := core_ok hcore
  show WotsKey.ComputePK P s.wotsKey = s.wotsPk
  rw [hwk, hpk]

theorem wordIndices_length (k : Nat) : ∀ v, (wordIndices k v).length = k := by
  induction k with
  | zero => intro v; rfl
  | succ k ih => intro v; simp [wordIndices, ih]

theorem wordIndices_lt (k : Nat) : ∀ v, ∀ i ∈ wordIndices k v, i < 2048 := by
  induction k with
  | zero => intro v i hi; simp [wordIndices] at hi
  | succ k ih =>
    intro v i hi
    simp only [wordIndices, List.mem_append, List.mem_singleton] at hi
    rcases hi with hi | rfl
    · exact ih _ i hi
    · omega

theorem foldl_wordIndices (k : Nat) : ∀ v a, v < 2048 ^ k →
    (wordIndices k v).foldl (fun x i => x * 2048 + i) a = a * 2048 ^ k + v := by
  induction k with
  | zero =>
    intro v a hv
    simp only [pow_zero, Nat.lt_one_iff] at hv
    subst hv
    simp [wordIndices]
  | succ k ih =>
    intro v a hv
    have hdiv : v / 2048 < 2048 ^ k := by
      rw [Nat.div_lt_iff_lt_mul (by norm_num)]
      calc v < 2048 ^ (k + 1) := hv
        _ = 2048 ^ k * 2048 := by rw [pow_succ]
    rw [wordIndices, List.foldl_append, ih (v / 2048) a hdiv]
    simp only [List.foldl_cons, List.foldl_nil]
    have hdm := Nat.div_add_mod v 2048
    have hr : (a * 2048 ^ k + v / 2048) * 2048 + v % 2048 =
        a * (2048 ^ k * 2048) + (2048 * (v / 2048) + v % 2048) := by ring
    rw [hr, hdm, pow_succ]

theorem foldIndices_wordIndices (k v : Nat) (hv : v < 2048 ^ k) :
    foldIndices (wordIndices k v) = v := by
  unfold foldIndices
  rw [foldl_wordIndices k v 0 hv]
  simp

theorem beNat_append_singleton (l : Bytes) (x : Nat) :
    beNat (l ++ [x]) = beNat l * 256 + x := by
  simp [beNat, List.foldl_append]

theorem beNat_lt (l : Bytes) (h : ∀ b ∈ l, b < 256) :
    beNat l < 256 ^ l.length := by
  induction l using List.reverseRecOn with
  | nil => simp [beNat]
  | append_singleton xs x ih =>
    rw [beNat_append_singleton]
    have hx : x < 256 := h x (by simp)
    have hxs : beNat xs < 256 ^ xs.length := ih (fun b hb => h b (by simp [hb]))
    have hlen : (xs ++ [x]).length = xs.length + 1 := by simp
    rw [hlen, pow_succ]
    have h1 : beNat xs * 256 + x < (beNat xs + 1) * 256 := by omega
    have h2 : (beNat xs + 1) * 256 ≤ 256 ^ xs.length * 256 :=
      Nat.mul_le_mul_right 256 hxs
    omega

theorem beBytes_beNat : ∀ (l : Bytes), (∀ b ∈ l, b < 256) →
    beBytes l.length (beNat l) = l := by
  intro l
  induction l using List.reverseRecOn with
  | nil => intro h; rfl
  | append_singleton xs x ih =>
    intro h
    have hx : x < 256 := h x (by simp)
    have hlen : (xs ++ [x]).length = xs.length + 1 := by simp
    rw [hlen, beNat_append_singleton, beBytes]
    have hdiv : (beNat xs * 256 + x) / 256 = beNat xs := by omega
    have hmod : (beNat xs * 256 + x) % 256 = x := by omega
    rw [hdiv, hmod, ih (fun b hb => h b (by simp [hb]))]

theorem wordIndex_getElem (wl : List String) (hN : wl.Nodup) :
    ∀ (i : Nat) (h : i < wl.length), wordIndex wl wl[i] = some i := by
  induction wl with
  | nil => intro i h; simp at h
  | cons x rest ih =>
    intro i h
    match i with
    | 0 => simp [wordIndex]
    | Nat.succ j =>
      have hj : j < rest.length := by simpa using h
      have hx : x ≠ rest[j] := by
        intro hc
        exact (List.nodup_cons.mp hN).1 (hc ▸ List.getElem_mem hj)
      have : (x :: rest)[j + 1] = rest[j] := rfl
      rw [this, wordIndex, if_neg hx, ih (List.nodup_cons.mp hN).2 j hj]
      rfl

theorem lookupWords_map_getD (wl : List String) (hN : wl.Nodup) :
    ∀ (idxs : List Nat), (∀ i ∈ idxs, i < wl.length) →
    lookupWords wl (idxs.map (fun i => wl.getD i (""))) = some idxs := by
  intro idxs
  induction idxs with
  | nil => intro h; rfl
  | cons i rest ih =>
    intro h
    have hi : i < wl.length := h i (by simp)
    simp only [List.map_cons, lookupWords]
    rw [List.getD_eq_getElem wl _ hi, wordIndex_getElem wl hN i hi,
      ih (fun j hj => h j (by simp [hj]))]

theorem mnemonicToEntropy_eq {P : Prims} {wl m : List String} {idxs : List Nat}
    (hlen : m.length = MnemonicWords) (hlook : lookupWords wl m = some idxs) :
    mnemonicToEntropy P wl m =
      if foldIndices idxs % 256 =
          (P.sha256 (beBytes EntropySize (foldIndices idxs / 256))).headD 0
      then .ok (beBytes EntropySize (foldIndices idxs / 256))
      else .error .BadChecksum := by
  unfold mnemonicToEntropy
  rw [if_neg (show ¬m.length ≠ MnemonicWords by omega), hlook]

theorem mnemonic_roundtrip (P : Prims) (wl : List String) (ent : Bytes)
    (hN : wl.Nodup) (hL : wl.length = 2048)
    (hEnt : ∀ b ∈ ent, b < 256) (hLen : ent.length = EntropySize)
    (hCs : (P.sha256 ent).headD 0 < 256) :
    mnemonicToEntropy P wl (entropyToMnemonic P wl ent) = .ok ent := by
  have hbe : beNat ent < 256 ^ 32 := by
    have := beNat_lt ent hEnt
    rwa [hLen] at this
  have hfull : beNat ent * 256 + (P.sha256 ent).headD 0 < 2048 ^ 24 := by
    have hpow : (2048 : Nat) ^ 24 = 256 ^ 32 * 256 := by
      have h1 : (2048 : Nat) = 2 ^ 11 := by norm_num
      have h2 : (256 : Nat) = 2 ^ 8 := by norm_num
      rw [h1, h2, ← pow_mul, ← pow_mul, ← pow_add]
    have hstep : beNat ent * 256 + (P.sha256 ent).headD 0 < (beNat ent + 1) * 256 := by
      omega
    have hmul : (beNat ent + 1) * 256 ≤ 256 ^ 32 * 256 :=
      Nat.mul_le_mul_right 256 hbe
    rw [hpow]
    exact lt_of_lt_of_le hstep hmul
  have hwords : entropyToMnemonic P wl ent =
      (wordIndices MnemonicWords (beNat ent * 256 + (P.sha256 ent).headD 0)).map
        (fun i => wl.getD i ("")) := rfl
  have hlen24 : (entropyToMnemonic P wl ent).length = MnemonicWords := by
    rw [hwords, List.length_map, wordIndices_length]
  have hlook : lookupWords wl (entropyToMnemonic P wl ent) =
      some (wordIndices MnemonicWords (beNat ent * 256 + (P.sha256 ent).headD 0)) := by
    rw [hwords]
    exact lookupWords_map_getD wl hN _
      (fun i hi => by have := wordIndices_lt MnemonicWords _ i hi; omega)
  have hfold : foldIndices (wordIndices MnemonicWords
      (beNat ent * 256 + (P.sha256 ent).headD 0)) =
      beNat ent * 256 + (P.sha256 ent).headD 0 :=
    foldIndices_wordIndices 24 _ hfull
  rw [mnemonicToEntropy_eq hlen24 hlook, hfold]
  have hdiv : (beNat ent * 256 + (P.sha256 ent).headD 0) / 256 = beNat ent := by
    omega
  have hmod : (beNat ent * 256 + (P.sha256 ent).headD 0) % 256 =
      (P.sha256 ent).headD 0 := by omega
  rw [hdiv, hmod]
  have hbb : beBytes EntropySize (beNat ent) = ent := by
    rw [← hLen]
    exact beBytes_beNat ent hEnt
  rw [hbb, if_pos rfl]

/-- C5: recovery round-trip: a sleeve built from 32 bytes of entropy is
reproduced exactly, including WOTS+ public key, derivation index and every
standard network private key, by rebuilding from its own mnemonic with the
same passphrase and GenSpec.  The word-list hypotheses hold for the BIP39
English list (2048 distinct words), and the byte hypotheses hold for real
entropy and SHA-256 output. -/
theorem sleeve_recovery (P : Prims) (wl : List String) (ent : Bytes)
    (pass : String) (g : GenSpec) (A : SingleSeedSleeve)
    (hN : wl.Nodup) (hL : wl.length = 2048)
    (hEnt : ∀ b ∈ ent, b < 256)
    (hCs : (P.sha256 ent).headD 0 < 256)
    (hA : NewSingleSeedSleeveFromEntropy P wl ent pass g = .ok A) :
    NewSingleSeedSleeveFromMnemonic P wl A.GetMnemonic pass g = .ok A := by
  obtain ⟨hlen, hcore⟩ := fromEntropy_ok hA
  have hm : A.GetMnemonic = entropyToMnemonic P wl ent := by
    obtain ⟨-, ps, node, nB, nE, nD, -, -, hmn, -, -, -, -, -, -, -⟩ := core_ok hcore
    exact hmn
  rw [hm]
  unfold NewSingleSeedSleeveFromMnemonic
  rw [mnemonic_roundtrip P wl ent hN hL hEnt hlen hCs]
  exact hcore

theorem upsertKey_idem (m : List (String × NetworkKey)) (l : String)
    (v : NetworkKey) : upsertKey (upsertKey m l v) l v = upsertKey m l v := by
  induction m with
  | nil => simp [upsertKey]
  | cons p rest ih =>
    by_cases hp : p.1 = l
    · simp [upsertKey, hp]
    · simp [upsertKey, hp, ih]

theorem upsertKey_length_fresh (m : List (String × NetworkKey)) (l : String)
    (v : NetworkKey) (h : lookupKey m l = none) :
    (upsertKey m l v).length = m.length + 1 := by
  induction m with
  | nil => rfl
  | cons p rest ih =>
    by_cases hp : p.1 = l
    · simp [lookupKey, hp] at h
    · simp only [lookupKey, if_neg hp] at h
      simp [upsertKey, hp, ih h]

theorem lookupKey_upsert_self (m : List (String × NetworkKey)) (l : String)
    (v : NetworkKey) : lookupKey (upsertKey m l v) l = some v := by
  induction m with
  | nil => simp [upsertKey, lookupKey]
  | cons p rest ih =>
    by_cases hp : p.1 = l
    · simp [upsertKey, hp, lookupKey]
    · simp [upsertKey, hp, lookupKey, ih]

theorem lookupKey_upsert_ne (m : List (String × NetworkKey)) (l l2 : String)
    (v : NetworkKey) (h : l2 ≠ l) :
    lookupKey (upsertKey m l v) l2 = lookupKey m l2 := by
  induction m with
  | nil => simp [upsertKey, lookupKey, Ne.symm h]
  | cons p rest ih =>
    by_cases hp : p.1 = l
    · subst hp
      simp [upsertKey, lookupKey, Ne.symm h]
    · simp only [upsertKey, if_neg hp]
      by_cases hq : p.1 = l2
      · simp [lookupKey, hq]
      · simp [lookupKey, hq, ih]

theorem deriveMany_length {P : Prims} {seed : Bytes} :
    ∀ (nets : List (String × Nat)) (s s1 : SingleSeedSleeve),
    (∀ p ∈ nets, lookupKey s.networkKeys p.1 = none) →
    (nets.map Prod.fst).Nodup →
    deriveMany P s nets seed = .ok s1 →
    s1.networkKeys.length = s.networkKeys.length + nets.length := by
  intro nets
  induction nets with
  | nil =>
    intro s s1 hf hn h
    simp only [deriveMany, Except.ok.injEq] at h
    subst h
    rfl
  | cons p rest ih =>
    intro s s1 hf hn h
    obtain ⟨l, c⟩ := p
    simp only [deriveMany] at h
    rcases hd : s.DeriveNetworkKey P l c seed with _ | s2
    · rw [hd] at h; simp at h
    rw [hd] at h
    dsimp only at h
    obtain ⟨node, hnode, rfl⟩ := deriveNetworkKey_ok hd
    have hfreshl : lookupKey s.networkKeys l = none := hf (l, c) (by simp)
    have hlen2 : (addEntry s l c node.key).networkKeys.length =
        s.networkKeys.length + 1 := by
      simp [addEntry, upsertKey_length_fresh s.networkKeys l _ hfreshl]
    have hn2 : (l :: rest.map Prod.fst).Nodup := by simpa using hn
    have hnotmem : l ∉ rest.map Prod.fst := (List.nodup_cons.mp hn2).1
    have hrest : ∀ q ∈ rest,
        lookupKey (addEntry s l c node.key).networkKeys q.1 = none := by
      intro q hq
      have hne : q.1 ≠ l := fun hc => hnotmem (hc ▸ List.mem_map_of_mem Prod.fst hq)
      simp only [addEntry]
      rw [lookupKey_upsert_ne _ _ _ _ hne]
      exact hf q (by simp [hq])
    have hlast := ih (addEntry s l c node.key) s1 hrest (List.nodup_cons.mp hn2).2 h
    rw [hlast, hlen2]
    simp only [List.length_cons]
    omega

/-- C7: DeriveNetworkKey extends the registry by exactly one entry for a
fresh label, stored at the canonical path for the derivation index; a
repeat call with the same arguments overwrites with an identical value,
leaving the sleeve unchanged; and deriving any number of distinct fresh
labels on a freshly constructed sleeve leaves the registry with exactly
3 + N entries. -/
theorem sleeve_derive_network_registry (P : Prims) :
    (∀ (s s1 s2 : SingleSeedSleeve) (label : String) (coin : Nat) (seed : Bytes),
      s.DeriveNetworkKey P label coin seed = .ok s1 →
      s1.DeriveNetworkKey P label coin seed = .ok s2 → s2 = s1) ∧
    (∀ (s s1 : SingleSeedSleeve) (label : String) (coin : Nat) (seed : Bytes),
      lookupKey s.GetAllNetworkKeys label = none →
      s.DeriveNetworkKey P label coin seed = .ok s1 →
      s1.GetAllNetworkKeys.length = s.GetAllNetworkKeys.length + 1 ∧
      (lookupKey s1.GetAllNetworkKeys label).map
          (fun nk => (nk.network, nk.coinType, nk.path)) =
        some (label, coin, pathString coin s.GetDerivationIndex)) ∧
    (∀ (wl : List String) (pass : String) (g : GenSpec)
       (s s1 : SingleSeedSleeve) (nets : List (String × Nat)) (seed : Bytes),
      anyConstructor P wl pass g s →
      (nets.map Prod.fst).Nodup →
      (∀ p ∈ nets, p.1 ≠ ("Bitcoin") ∧ p.1 ≠ ("Ethereum") ∧ p.1 ≠ ("Polkadot")) →
      deriveMany P s nets seed = .ok s1 →
      s1.GetAllNetworkKeys.length = 3 + nets.length) := by
  refine ⟨?_, ?_, ?_⟩
  · intro s s1 s2 label coin seed h1 h2
    obtain ⟨node, hn, rfl⟩ := deriveNetworkKey_ok h1
    obtain ⟨node2, hn2, rfl⟩ := deriveNetworkKey_ok h2
    simp only [addEntry] at hn2
    rw [hn] at hn2
    injection hn2 with hn2
    subst hn2
    simp [addEntry, upsertKey_idem]
  · intro s s1 label coin seed hfresh hd
    simp only [SingleSeedSleeve.GetAllNetworkKeys] at hfresh
    obtain ⟨node, hn, rfl⟩ := deriveNetworkKey_ok hd
    constructor
    · simp [addEntry, SingleSeedSleeve.GetAllNetworkKeys,
        upsertKey_length_fresh _ _ _ hfresh]
    · simp [addEntry, SingleSeedSleeve.GetAllNetworkKeys,
        SingleSeedSleeve.GetDerivationIndex, lookupKey_upsert_self]
  · intro wl pass g s s1 nets seed hctor hnodup hnot hd
    obtain ⟨m, hcore⟩ := anyConstructor_core hctor
    obtain ⟨-, ps, node, nB, nE, nD, -, -, -, -, -, -, -, -, -, hmap⟩ := core_ok hcore
    have hfresh : ∀ p ∈ nets, lookupKey s.networkKeys p.1 = none := by
      intro p hp
      obtain ⟨h1, h2, h3⟩ := hnot p hp
      rw [hmap]
      simp [standardMap, lookupKey, Ne.symm h1, Ne.symm h2, Ne.symm h3]
    have hlen := deriveMany_length nets s s1 hfresh hnodup hd
    show s1.networkKeys.length = 3 + nets.length
    rw [hlen, hmap]
    simp [standardMap]

theorem wordIndex_eq_none {wl : List String} {w : String} (h : w ∉ wl) :
    wordIndex wl w = none := by
  induction wl with
  | nil => rfl
  | cons x rest ih =>
    have hx : x ≠ w := fun hc => h (by simp [hc])
    have hr : w ∉ rest := fun hc => h (by simp [hc])
    simp [wordIndex, hx, ih hr]

theorem lookupWords_eq_none {wl : List String} :
    ∀ {ws : List String}, (∃ w ∈ ws, w ∉ wl) → lookupWords wl ws = none := by
  intro ws
  induction ws with
  | nil => intro h; simp at h
  | cons w rest ih =>
    intro h
    by_cases hw : w ∈ wl
    · have hrest : ∃ w2 ∈ rest, w2 ∉ wl := by
        rcases h with ⟨w2, hmem, hnot⟩
        rcases List.mem_cons.mp hmem with rfl | hmem2
        · exact absurd hw hnot
        · exact ⟨w2, hmem2, hnot⟩
      rw [lookupWords, ih hrest]
      rcases wordIndex wl w with _ | i <;> rfl
    · rw [lookupWords, wordIndex_eq_none hw]

theorem DecodeParams_none {p : Nat} (hp : ParamsEncodingLen ≤ p) :
    DecodeParams p = none := by
  obtain ⟨n, rfl⟩ : ∃ n, p = n + 4 := ⟨p - 4, by simp [ParamsEncodingLen] at hp; omega⟩
  rfl

theorem core_error_invalid_spec {P : Prims} {m : List String} {pass : String}
    {g : GenSpec}
    (h : g.account ≥ firstHardened ∨ g.params ≥ ParamsEncodingLen) :
    ∃ e, newSingleSeedCore P m pass g = .error e := by
  unfold newSingleSeedCore
  by_cases hacc : g.account ≥ firstHardened
  · rw [if_pos hacc]
    exact ⟨.AccountTooLarge, rfl⟩
  · rw [if_neg hacc]
    have hparams : g.params ≥ ParamsEncodingLen := by tauto
    rw [DecodeParams_none hparams]
    exact ⟨.InvalidWotsParams, rfl⟩

/-- C8: the constructor error gates: a mnemonic with a wrong word count, an
unknown word, or a failing checksum is rejected with the matching BadLength,
UnknownWord or BadChecksum error; entropy of any length other than 32 bytes
is rejected with BadEntropySize; and a GenSpec with an account at or above
2 to the 31, or a WOTS+ parameter encoding outside the valid range, makes
every constructor return an error. -/
theorem sleeve_error_gates (P : Prims) (wl : List String) :
    (∀ (m : List String) (pass : String) (g : GenSpec),
      m.length ≠ MnemonicWords →
      NewSingleSeedSleeveFromMnemonic P wl m pass g = .error .BadLength) ∧
    (∀ (m : List String) (pass : String) (g : GenSpec),
      m.length = MnemonicWords → (∃ w ∈ m, w ∉ wl) →
      NewSingleSeedSleeveFromMnemonic P wl m pass g = .error .UnknownWord) ∧
    (∀ (m : List String) (pass : String) (g : GenSpec) (idxs : List Nat),
      m.length = MnemonicWords → lookupWords wl m = some idxs →
      foldIndices idxs % 256 ≠
        (P.sha256 (beBytes EntropySize (foldIndices idxs / 256))).headD 0 →
      NewSingleSeedSleeveFromMnemonic P wl m pass g = .error .BadChecksum) ∧
    (∀ (ent : Bytes) (pass : String) (g : GenSpec),
      ent.length ≠ EntropySize →
      NewSingleSeedSleeveFromEntropy P wl ent pass g = .error .BadEntropySize) ∧
    (∀ (pass : String) (g : GenSpec),
      g.account ≥ firstHardened ∨ g.params ≥ ParamsEncodingLen →
      (∀ m, ∃ e, NewSingleSeedSleeveFromMnemonic P wl m pass g = .error e) ∧
      (∀ ent, ∃ e, NewSingleSeedSleeveFromEntropy P wl ent pass g = .error e) ∧
      (∀ r, ∃ e, NewSingleSeedSleeve P wl r pass g = .error e)) := by
  have hFromMnErr : ∀ (m : List String) (pass : String) (g : GenSpec) (e : SleeveError),
      mnemonicToEntropy P wl m = .error e →
      NewSingleSeedSleeveFromMnemonic P wl m pass g = .error e := by
    intro m pass g e he
    unfold NewSingleSeedSleeveFromMnemonic
    rw [he]
  refine ⟨?_, ?_, ?_, ?_, ?_⟩
  · intro m pass g hlen
    refine hFromMnErr m pass g _ ?_
    unfold mnemonicToEntropy
    rw [if_pos hlen]
  · intro m pass g hlen hbad
    refine hFromMnErr m pass g _ ?_
    unfold mnemonicToEntropy
    rw [if_neg (show ¬m.length ≠ MnemonicWords by omega),
      lookupWords_eq_none hbad]
  · intro m pass g idxs hlen hlook hchk
    refine hFromMnErr m pass g _ ?_
    rw [mnemonicToEntropy_eq hlen hlook, if_neg hchk]
  · intro ent pass g hlen
    unfold NewSingleSeedSleeveFromEntropy
    rw [if_pos hlen]
  · intro pass g hg
    have hent : ∀ ent, ∃ e, NewSingleSeedSleeveFromEntropy P wl ent pass g = .error e := by
      intro ent
      unfold NewSingleSeedSleeveFromEntropy
      by_cases hl : ent.length ≠ EntropySize
      · rw [if_pos hl]
        exact ⟨.BadEntropySize, rfl⟩
      · rw [if_neg hl]
        exact core_error_invalid_spec hg
    refine ⟨?_, hent, ?_⟩
    · intro m
      unfold NewSingleSeedSleeveFromMnemonic
      rcases hv : mnemonicToEntropy P wl m with e | ent
      · exact ⟨e, rfl⟩
      · exact core_error_invalid_spec hg
    · intro r
      unfold NewSingleSeedSleeve
      rcases r with _ | ent
      · exact ⟨.EntropyUnavailable, rfl⟩
      · exact hent ent

/-- C9: the embedded WIF encoder computes its 4-byte checksum by applying
Keccak-256 twice to the extended key (version byte, 32 private-key bytes,
flag byte 1) rather than double SHA-256, and never emits Base58: coin types
0, 2 and 3 yield the advisory hex-format string carrying that checksum, and
every other coin type yields the empty string. -/
theorem wif_keccak_checksum (keccak256 : Bytes → Bytes) (privateKey : Bytes) :
    (∀ coinType version, wifVersion coinType = some version →
      privateKeyToWIF keccak256 privateKey coinType =
        "(Use btcutil for proper WIF: " ++
          hexString (wifExtended version privateKey ++
            (keccak256 (keccak256 (wifExtended version privateKey))).take 4) ++ ")") ∧
    (∀ coinType, wifVersion coinType = none →
      privateKeyToWIF keccak256 privateKey coinType = "") ∧
    wifVersion 0 = some 0x80 ∧ wifVersion 2 = some 0xB0 ∧
    wifVersion 3 = some 0x9E ∧
    (∀ coinType, coinType ≠ 0 → coinType ≠ 2 → coinType ≠ 3 →
      wifVersion coinType = none) := by
  refine ⟨?_, ?_, rfl, rfl, rfl, ?_⟩
  · intro ct version hv
    unfold privateKeyToWIF
    rw [hv]
  · intro ct hv
    unfold privateKeyToWIF
    rw [hv]
  · intro ct h0 h2 h3
    rcases ct with _ | _ | _ | _ | n
    · exact absurd rfl h0
    · rfl
    · exact absurd rfl h2
    · exact absurd rfl h3
    · rfl

theorem wordOfNat_injective : Function.Injective wordOfNat := by
  intro a b h
  have hd := congrArg String.data h
  simp only [wordOfNat] at hd
  have := congrArg List.length hd
  simpa using this

theorem bigWordList_nodup : bigWordList.Nodup :=
  (List.nodup_range 2048).map wordOfNat_injective

theorem bigWordList_length : bigWordList.length = 2048 := by
  simp [bigWordList]

/-- Witness for C1 at a concrete sleeve. -/
theorem sleeve_index_is_masked_pk_hash_witness :
    testSleeve.GetDerivationIndex =
      be32 ((testPrims.sha3 testSleeve.GetWOTSPublicKey).take 4) &&& 0x7FFFFFFF :=
  sleeve_index_is_masked_pk_hash testPrims testWordList testMnemonic ("")
    DefaultGenSpec testSleeve rfl

/-- Witness for C2 at a concrete sleeve and node. -/
theorem sleeve_wots_consistency_witness :
    testSleeve.GetWOTSPublicKey =
      testPrims.wotsPK ⟨32, 256, 32, 2, 34⟩
        (HDNode.mk (quantumPath 0 ++ [24]) [9, 24]).key
        (HDNode.mk (quantumPath 0 ++ [24]) [9, 24]).code :=
  sleeve_wots_consistency testPrims testWordList testMnemonic ("") DefaultGenSpec
    testSleeve ⟨32, 256, 32, 2, 34⟩ (HDNode.mk (quantumPath 0 ++ [24]) [9, 24])
    rfl rfl rfl

/-- Witness for C3 at a concrete sleeve. -/
theorem sleeve_standard_networks_witness :
    testSleeve.GetAllNetworkKeys.map Prod.fst =
      [("Bitcoin" : String), ("Ethereum" : String), ("Polkadot" : String)] ∧
    (lookupKey testSleeve.GetAllNetworkKeys ("Bitcoin")).map
        (fun nk => (nk.network, nk.coinType, nk.path)) =
      some (("Bitcoin" : String), CoinTypeBitcoin,
        pathString CoinTypeBitcoin testSleeve.GetDerivationIndex) ∧
    (lookupKey testSleeve.GetAllNetworkKeys ("Ethereum")).map
        (fun nk => (nk.network, nk.coinType, nk.path)) =
      some (("Ethereum" : String), CoinTypeEthereum,
        pathString CoinTypeEthereum testSleeve.GetDerivationIndex) ∧
    (lookupKey testSleeve.GetAllNetworkKeys ("Polkadot")).map
        (fun nk => (nk.network, nk.coinType, nk.path)) =
      some (("Polkadot" : String), CoinTypePolkadot,
        pathString CoinTypePolkadot testSleeve.GetDerivationIndex) :=
  sleeve_standard_networks testPrims testWordList ("") DefaultGenSpec testSleeve
    (Or.inl ⟨testMnemonic, rfl⟩)

/-- Witness for C4 at a concrete sleeve. -/
theorem sleeve_deterministic_witness :
    testSleeve.GetWOTSPublicKey = testSleeve.GetWOTSPublicKey ∧
    testSleeve.GetDerivationIndex = testSleeve.GetDerivationIndex ∧
    testSleeve.GetAllNetworkKeys = testSleeve.GetAllNetworkKeys :=
  sleeve_deterministic testPrims testWordList testMnemonic ("") DefaultGenSpec
    testSleeve testSleeve rfl rfl

/-- Witness for C5 at a concrete entropy and word list. -/
theorem sleeve_recovery_witness :
    NewSingleSeedSleeveFromMnemonic testPrims bigWordList
      recoverySleeve.GetMnemonic ("") DefaultGenSpec = .ok recoverySleeve :=
  sleeve_recovery testPrims bigWordList testEntropy ("") DefaultGenSpec
    recoverySleeve bigWordList_nodup bigWordList_length
    (fun b hb => by
      have : b = 0 := List.eq_of_mem_replicate hb
      omega)
    (by decide) rfl

/-- Witness for C6 at a concrete sleeve. -/
theorem sleeve_index_bound_witness : testSleeve.GetDerivationIndex < 2 ^ 31 :=
  sleeve_index_bound testPrims testWordList ("") DefaultGenSpec testSleeve
    (Or.inl ⟨testMnemonic, rfl⟩)

/-- Witness for C7: each part instantiated on concrete sleeves. -/
theorem sleeve_derive_network_registry_witness :
    testSleeveL2 = testSleeveL ∧
    (testSleeveL.GetAllNetworkKeys.length =
        testSleeve.GetAllNetworkKeys.length + 1 ∧
      (lookupKey testSleeveL.GetAllNetworkKeys ("Litecoin")).map
          (fun nk => (nk.network, nk.coinType, nk.path)) =
        some (("Litecoin" : String), CoinTypeLitecoin,
          pathString CoinTypeLitecoin testSleeve.GetDerivationIndex)) ∧
    testSleeve7.GetAllNetworkKeys.length = 3 + testNets.length := by
  refine ⟨?_, ?_, ?_⟩
  · exact (sleeve_derive_network_registry testPrims).1 testSleeve testSleeveL
      testSleeveL2 ("Litecoin") CoinTypeLitecoin testSeed rfl rfl
  · exact (sleeve_derive_network_registry testPrims).2.1 testSleeve testSleeveL
      ("Litecoin") CoinTypeLitecoin testSeed rfl rfl
  · exact (sleeve_derive_network_registry testPrims).2.2 testWordList ("")
      DefaultGenSpec testSleeve testSleeve7 testNets testSeed
      (Or.inl ⟨testMnemonic, rfl⟩) (by decide) (by decide) rfl

/-- Witness for C8: each gate instantiated on a concrete bad input. -/
theorem sleeve_error_gates_witness :
    NewSingleSeedSleeveFromMnemonic testPrims testWordList [("z")] ("")
      DefaultGenSpec = .error .BadLength ∧
    NewSingleSeedSleeveFromMnemonic testPrims testWordList badWordMnemonic ("")
      DefaultGenSpec = .error .UnknownWord ∧
    NewSingleSeedSleeveFromMnemonic testPrims testWordList badChkMnemonic ("")
      DefaultGenSpec = .error .BadChecksum ∧
    NewSingleSeedSleeveFromEntropy testPrims testWordList [0, 0] ("")
      DefaultGenSpec = .error .BadEntropySize ∧
    (∃ e, NewSingleSeedSleeveFromMnemonic testPrims testWordList testMnemonic ("")
      badSpec = .error e) ∧
    (∃ e, NewSingleSeedSleeveFromEntropy testPrims testWordList testEntropy ("")
      badSpec = .error e) ∧
    (∃ e, NewSingleSeedSleeve testPrims testWordList none ("")
      badSpec = .error e) := by
  refine ⟨?_, ?_, ?_, ?_, ?_, ?_, ?_⟩
  · exact (sleeve_error_gates testPrims testWordList).1 [("z")] ("")
      DefaultGenSpec (by decide)
  · exact (sleeve_error_gates testPrims testWordList).2.1 badWordMnemonic ("")
      DefaultGenSpec (by decide) ⟨("q"), by decide, by decide⟩
  · exact (sleeve_error_gates testPrims testWordList).2.2.1 badChkMnemonic ("")
      DefaultGenSpec (List.replicate 23 0 ++ [1]) (by decide) (by decide) (by decide)
  · exact (sleeve_error_gates testPrims testWordList).2.2.2.1 [0, 0] ("")
      DefaultGenSpec (by decide)
  · exact ((sleeve_error_gates testPrims testWordList).2.2.2.2 ("") badSpec
      (Or.inl (by decide))).1 testMnemonic
  · exact ((sleeve_error_gates testPrims testWordList).2.2.2.2 ("") badSpec
      (Or.inl (by decide))).2.1 testEntropy
  · exact ((sleeve_error_gates testPrims testWordList).2.2.2.2 ("") badSpec
      (Or.inl (by decide))).2.2 none

/-- Witness for C9 at a concrete key, hash function and coin types. -/
theorem wif_keccak_checksum_witness :
    privateKeyToWIF testKeccak testKey 2 =
      "(Use btcutil for proper WIF: " ++
        hexString (wifExtended 0xB0 testKey ++
          (testKeccak (testKeccak (wifExtended 0xB0 testKey))).take 4) ++ ")" ∧
    privateKeyToWIF testKeccak testKey 60 = "" ∧
    wifVersion 60 = none := by
  refine ⟨?_, ?_, ?_⟩
  · exact (wif_keccak_checksum testKeccak testKey).1 2 0xB0 rfl
  · exact (wif_keccak_checksum testKeccak testKey).2.1 60 rfl
  · exact (wif_keccak_checksum testKeccak testKey).2.2.2.2.2 60 (by decide)
      (by decide) (by decide)

/-- Witness for C10 at a concrete sleeve. -/
theorem sleeve_wots_key_recompute_witness :
    WotsKey.ComputePK testPrims testSleeve.GetWOTSKey =
      testSleeve.GetWOTSPublicKey :=
  sleeve_wots_key_recompute testPrims testWordList ("") DefaultGenSpec testSleeve
    (Or.inl ⟨testMnemonic, rfl⟩)

end SleeveSpec
